import Mathlib

/-!
Verification of the laundry-status monitor's occupancy reconciliation core.

The definitions below are a shallow embedding of the Go source:
  * `internal/store/store.go`   — `UpdateOccupancy`, `archiveRecord`,
    `prepareOccupancy`, `fetchAllOpenOccupancies`
  * `internal/scraper/scraper.go` — `getStateType`
  * `internal/notification` (worker pool) — `NewWorkerPool`, `Dispatch`,
    `sendNotificationsForMachine`, `sendNotification`
Timestamps (`time.Time`) are embedded as integer seconds since an epoch, so
`t1.Sub(t2).Seconds()` truncated to `int` is exactly integer subtraction.
-/

namespace LaundryMonitor

/-- The four recognized machine state classes (`store.MachineStateType`). -/
inductive MachineStateType where
  | idle
  | occupied
  | faulty
  | unknown
deriving DecidableEq, Repr

/-- One device record of a snapshot (`store.ApiItem`); only the fields the
reconciler reads.  `finishTimeParsed` is the optional pre-parsed predicted
finish timestamp (`FinishTimeParsed *time.Time`). -/
structure ApiItem where
  id : Int
  state : Int
  finishTimeParsed : Option Int
deriving DecidableEq, Repr

/-- A row of the open-sessions (hot) table (`model.OccupancyOpen`). -/
structure OccupancyOpen where
  machineID : Int
  observedAt : Int
  status : Int
  message : String
  timeRemaining : Int
deriving DecidableEq, Repr

/-- A row of the history (cold) table (`model.OccupancyHistory`), without the
auto-increment surrogate key. -/
structure OccupancyHistory where
  machineID : Int
  observedAt : Int
  status : Int
  message : String
  periodStart : Int
  periodEnd : Int
deriving DecidableEq, Repr

/-- `Service.getStateType` (scraper.go): scan the configured idle, occupied
and faulty code lists in that order; an unmatched code is `unknown`. -/
def getStateType (stateIdleValues stateOccupiedValues stateFaultyValues : List Int)
    (stateCode : Int) : MachineStateType :=
  if stateIdleValues.contains stateCode then .idle
  else if stateOccupiedValues.contains stateCode then .occupied
  else if stateFaultyValues.contains stateCode then .faulty
  else .unknown

/-- `gormStore.prepareOccupancy` (store.go): build the fresh open-session row
for a machine observed non-idle at `now`.  `timeRemaining` is the predicted
finish minus `now` when the parsed finish time exists and lies strictly after
`now`, otherwise `0`; the message is recomputed from the classified state
(no case for `idle` in the Go switch, leaving the empty string). -/
def prepareOccupancy (item : ApiItem) (now : Int)
    (classify : Int → MachineStateType) : OccupancyOpen :=
  let timeRemaining : Int :=
    match item.finishTimeParsed with
    | some finish => if now < finish then finish - now else 0
    | none => 0
  let message : String :=
    match classify item.state with
    | .occupied => "使用中"
    | .faulty => "设备故障"
    | .unknown => "未知状态"
    | .idle => ""
  { machineID := item.id
    observedAt := now
    status := item.state
    message := message
    timeRemaining := timeRemaining }

/-- `archiveRecord` (store.go): turn a closing open session into a history
row.  `periodEnd` is the prediction `observedAt + timeRemaining` when the
session carried a positive remaining estimate, else the observation time at
which the closure was detected. -/
def archiveRecord (recordToArchive : OccupancyOpen) (observationTime : Int) :
    OccupancyHistory :=
  let startTime := recordToArchive.observedAt
  let periodEnd : Int :=
    if recordToArchive.timeRemaining > 0 then
      startTime + recordToArchive.timeRemaining
    else
      observationTime
  { machineID := recordToArchive.machineID
    observedAt := observationTime
    status := recordToArchive.status
    message := recordToArchive.message
    periodStart := startTime
    periodEnd := periodEnd }

/-! ### The open-sessions table

The table is keyed by `machineID` (GORM primary key).  We embed it as a list
of rows; `lookupOpen` is lookup by key, `deleteOpen` is `tx.Delete` by key,
`saveOpen` is `tx.Save` (replace the row with that key), and appending models
`tx.Create` (which fails on a duplicate key). -/

def lookupOpen (table : List OccupancyOpen) (id : Int) : Option OccupancyOpen :=
  table.find? (fun r => r.machineID == id)

def deleteOpen (table : List OccupancyOpen) (id : Int) : List OccupancyOpen :=
  table.filter (fun r => r.machineID != id)

def saveOpen (table : List OccupancyOpen) (r : OccupancyOpen) : List OccupancyOpen :=
  deleteOpen table r.machineID ++ [r]

/-- `fetchAllOpenOccupancies` (store.go) loads every open row into a map
keyed by machine ID, later entries overwriting earlier ones.  We keep the
map as a keyed list built the same way. -/
def buildPending (rows : List OccupancyOpen) : List OccupancyOpen :=
  rows.foldl (fun acc r => saveOpen acc r) []

/-! ### Database operations issued by the reconciliation -/

/-- The database operations `UpdateOccupancy` performs, in issue order. -/
inductive DbOp where
  | readOpenTable
  | txBegin
  | insertHistory (r : OccupancyHistory)
  | deleteOpenRow (id : Int)
  | saveOpenRow (r : OccupancyOpen)
  | createOpenRow (r : OccupancyOpen)
  | txCommit
deriving DecidableEq, Repr

/-- Whether a database operation writes. -/
def DbOp.isWrite : DbOp → Bool
  | .insertHistory _ => true
  | .deleteOpenRow _ => true
  | .saveOpenRow _ => true
  | .createOpenRow _ => true
  | _ => false

/-- The in-transaction state threaded through `UpdateOccupancy`: the open
table and history as the transaction would leave them, the notify list under
construction, and the write operations issued so far. -/
structure TxState where
  table : List OccupancyOpen
  history : List OccupancyHistory
  notify : List Int
  ops : List DbOp
deriving DecidableEq, Repr

def txInsertHistory (st : TxState) (h : OccupancyHistory) : TxState :=
  { st with history := st.history ++ [h], ops := st.ops ++ [.insertHistory h] }

def txDeleteOpen (st : TxState) (id : Int) : TxState :=
  { st with table := deleteOpen st.table id, ops := st.ops ++ [.deleteOpenRow id] }

def txSaveOpen (st : TxState) (r : OccupancyOpen) : TxState :=
  { st with table := saveOpen st.table r, ops := st.ops ++ [.saveOpenRow r] }

/-- `tx.Create` fails with a unique-constraint violation when a row with the
same primary key already exists. -/
def txCreateOpen (st : TxState) (r : OccupancyOpen) : Except String TxState :=
  if (lookupOpen st.table r.machineID).isSome then
    .error "duplicate key value violates unique constraint"
  else
    .ok { st with table := st.table ++ [r], ops := st.ops ++ [.createOpenRow r] }

/-- Modelled from the spec: recording a machine ID on the notify list.  The
current repository's `UpdateOccupancy` returns `([]int64, error)` — its body
is not under `src/` (only the older `error`-returning body, plus the scraper
caller and the store tests showing the notify return, are) — so the notify
accumulation follows the spec sentence: the notify list contains "only
machine IDs whose open session closed because the new classified state is
Idle". -/
def txNotify (st : TxState) (id : Int) : TxState :=
  { st with notify := st.notify ++ [id] }

/-- The snapshot-processing loop of `UpdateOccupancy` (store.go): for each
item, compare against the pending map of previously open sessions; on a
status change archive the old session, then either delete the row (new state
idle — also recording the machine on the notify list, see `txNotify`) or
save the replacement row; an unseen non-idle machine gets a fresh row via
`tx.Create`.  Returns the transaction state and the pending records still
unaccounted for. -/
def processItems (classify : Int → MachineStateType) (now : Int) :
    List ApiItem → List OccupancyOpen → TxState →
    Except String (TxState × List OccupancyOpen)
  | [], pending, st => .ok (st, pending)
  | item :: rest, pending, st =>
    match lookupOpen pending item.id with
    | some oldRecord =>
      let st' : TxState :=
        if item.state = oldRecord.status then st
        else
          let st1 := txInsertHistory st (archiveRecord oldRecord now)
          if classify item.state = .idle then
            txNotify (txDeleteOpen st1 oldRecord.machineID) item.id
          else
            txSaveOpen st1 (prepareOccupancy item now classify)
      processItems classify now rest (deleteOpen pending item.id) st'
    | none =>
      if classify item.state = .idle then
        processItems classify now rest pending st
      else
        match txCreateOpen st (prepareOccupancy item now classify) with
        | .error e => .error e
        | .ok st' => processItems classify now rest pending st'

/-- The trailing loop of `UpdateOccupancy`: every pending open session whose
machine was absent from the snapshot is archived and its row deleted. -/
def archiveRemaining (now : Int) : List OccupancyOpen → TxState → TxState
  | [], st => st
  | r :: rest, st =>
    archiveRemaining now rest (txDeleteOpen (txInsertHistory st (archiveRecord r now)) r.machineID)

/-- `UpdateOccupancy` (store.go): fetch the open table into a pending map,
then run the transaction body over the snapshot.  On success it yields the
final transaction state (new open table, created history rows, notify list,
issued write operations); an error aborts the transaction. -/
def UpdateOccupancy (now : Int) (open0 : List OccupancyOpen) (allItems : List ApiItem)
    (classify : Int → MachineStateType) : Except String TxState :=
  let pending := buildPending open0
  match processItems classify now allItems pending
      { table := open0, history := [], notify := [], ops := [] } with
  | .error e => .error e
  | .ok (st, remaining) => .ok (archiveRemaining now remaining st)

/-- The durable database state: the open-sessions table and the history
table. -/
structure DbState where
  openTable : List OccupancyOpen
  history : List OccupancyHistory
deriving DecidableEq, Repr

/-- One reconciliation cycle against the durable state, with GORM's
`Transaction` semantics: an error from the transaction body rolls the
database back to its pre-call state and is returned; on success the new open
table and the appended history rows commit and the notify list is returned. -/
def runUpdateOccupancy (now : Int) (allItems : List ApiItem)
    (classify : Int → MachineStateType) (db : DbState) :
    DbState × Except String (List Int) :=
  match UpdateOccupancy now db.openTable allItems classify with
  | .error e => (db, .error e)
  | .ok st => ({ openTable := st.table, history := db.history ++ st.history }, .ok st.notify)

/-- The sequence of database operations one reconciliation call issues: the
open-table read happens first, before `s.db.Transaction` begins; the write
operations all happen between begin and commit. -/
def updateOccupancyTrace (now : Int) (open0 : List OccupancyOpen)
    (allItems : List ApiItem) (classify : Int → MachineStateType) : List DbOp :=
  match UpdateOccupancy now open0 allItems classify with
  | .error _ => [.readOpenTable, .txBegin]
  | .ok st => .readOpenTable :: .txBegin :: st.ops ++ [.txCommit]

/-- The operations a trace performs before the transaction begins. -/
def beforeTx (trace : List DbOp) : List DbOp :=
  trace.takeWhile (fun op => op != DbOp.txBegin)

/-- A sequence of reconciliation cycles over the open table, starting from a
given table; a failed cycle leaves the table unchanged (rollback). -/
def reconcileStep (classify : Int → MachineStateType) (table : List OccupancyOpen)
    (call : Int × List ApiItem) : List OccupancyOpen :=
  match UpdateOccupancy call.1 table call.2 classify with
  | .error _ => table
  | .ok st => st.table

/-- Run a list of reconciliation calls (each an observation time and a
snapshot) starting from the empty open table. -/
def reconcileSeq (classify : Int → MachineStateType)
    (calls : List (Int × List ApiItem)) : List OccupancyOpen :=
  calls.foldl (reconcileStep classify) []

/-! ### Write-failure model

GORM's `Transaction` rolls the database back when the callback returns an
error, and the Go code returns the first error of any `tx` write call.  We
replay the issued write operations against the durable state under a failure
oracle: `failOn i` says whether the `i`-th write call fails. -/

/-- Effect of one (successful) write operation on the durable state. -/
def applyOp (db : DbState) : DbOp → DbState
  | .insertHistory h => { db with history := db.history ++ [h] }
  | .deleteOpenRow id => { db with openTable := deleteOpen db.openTable id }
  | .saveOpenRow r => { db with openTable := saveOpen db.openTable r }
  | .createOpenRow r => { db with openTable := db.openTable ++ [r] }
  | _ => db

/-- Replay the write operations in issue order; the first write whose index
the oracle marks as failing aborts with its error, as the Go code returns
the first failed `tx` call's error. -/
def applyOpsFail (failOn : Nat → Bool) : List DbOp → DbState → Nat → Except String DbState
  | [], db, _ => .ok db
  | op :: rest, db, i =>
    if failOn i then .error "write failed"
    else applyOpsFail failOn rest (applyOp db op) (i + 1)

/-- A reconciliation under the failure oracle: on any failed write the
transaction aborts, the durable state rolls back to its pre-call value and
the error is returned. -/
def runUpdateOccupancyFail (failOn : Nat → Bool) (now : Int) (allItems : List ApiItem)
    (classify : Int → MachineStateType) (db : DbState) :
    DbState × Except String (List Int) :=
  match UpdateOccupancy now db.openTable allItems classify with
  | .error e => (db, .error e)
  | .ok st =>
    match applyOpsFail failOn st.ops { db with history := [] } 0 with
    | .error e => (db, .error e)
    | .ok db' => ({ openTable := db'.openTable, history := db.history ++ db'.history }, .ok st.notify)

/-! ### Notification worker pool (internal/notification)

The pool's job queue is the buffered Go channel `make(chan int64, size)`.
We embed the channel as a bounded buffer: a send (`Dispatch`) on a full
buffer has no enabled step — the sending goroutine blocks — and otherwise
appends the job; nothing is dropped and no error is produced. -/

structure WorkerPool where
  size : Nat
  jobsCap : Nat
  jobsBuf : List Int
deriving DecidableEq, Repr

/-- `NewWorkerPool` (worker pool source): the jobs channel is created with
capacity equal to the pool size. -/
def NewWorkerPool (size : Nat) : WorkerPool :=
  { size := size, jobsCap := size, jobsBuf := [] }

/-- `Dispatch(machineID)` = `wp.jobs <- machineID`: `none` means the send is
not enabled (the caller blocks, the queue and the job are untouched);
otherwise the job is appended to the buffer. -/
def dispatchStep (wp : WorkerPool) (machineID : Int) : Option WorkerPool :=
  if wp.jobsBuf.length < wp.jobsCap then
    some { wp with jobsBuf := wp.jobsBuf ++ [machineID] }
  else
    none

/-- A worker receiving from the jobs channel (`<-wp.jobs`): takes the oldest
buffered job, if any. -/
def workerReceiveStep (wp : WorkerPool) : Option (Int × WorkerPool) :=
  match wp.jobsBuf with
  | [] => none
  | job :: rest => some (job, { wp with jobsBuf := rest })

/-- A push subscription row (`model.PushSubscription`), keyed by endpoint. -/
structure PushSubscription where
  endpoint : String
  p256dh : String
  auth : String
deriving DecidableEq, Repr

/-- Outcome of one delivery attempt: a transport error, or an HTTP response
with the given status code. -/
inductive SendOutcome where
  | sendErr
  | status (code : Int)
deriving DecidableEq, Repr

/-- `sendNotification` (worker pool source): a transport error is logged and
the subscriber skipped; a 410 response deletes the subscription row by its
endpoint key, and a failure of that delete is only logged (the table is left
unchanged); any other status leaves the table unchanged.  Returns the
subscriptions table after the attempt. -/
def sendNotification (subsTable : List PushSubscription) (sub : PushSubscription)
    (outcome : SendOutcome) (deleteFails : Bool) : List PushSubscription :=
  match outcome with
  | .sendErr => subsTable
  | .status code =>
    if code = 410 then
      if deleteFails then subsTable
      else subsTable.filter (fun s => s.endpoint != sub.endpoint)
    else
      subsTable

/-- The per-subscriber loop of `sendNotificationsForMachine`: every
subscriber of the job is attempted exactly once, in order, regardless of the
other subscribers' outcomes; returns the final subscriptions table and the
subscribers attempted. -/
def sendNotificationsForMachine (subsTable : List PushSubscription)
    (subs : List PushSubscription) (outcomeOf : PushSubscription → SendOutcome)
    (deleteFailsOn : PushSubscription → Bool) :
    List PushSubscription × List PushSubscription :=
  match subs with
  | [] => (subsTable, [])
  | sub :: rest =>
    let t1 := sendNotification subsTable sub (outcomeOf sub) (deleteFailsOn sub)
    let (t2, attempted) := sendNotificationsForMachine t1 rest outcomeOf deleteFailsOn
    (t2, sub :: attempted)

/-- The machine IDs of a snapshot, in order. -/
def idsOf (items : List ApiItem) : List Int := items.map ApiItem.id

/-- The machine IDs of a list of open rows, in order. -/
def midsOf (rows : List OccupancyOpen) : List Int := rows.map OccupancyOpen.machineID

/-- Delete the rows of all the given records' machine IDs, in order. -/
def deleteAll (t : List OccupancyOpen) (rem : List OccupancyOpen) : List OccupancyOpen :=
  rem.foldl (fun acc r => deleteOpen acc r.machineID) t

/-- The write operations the trailing archival loop issues. -/
def remainingOps (now : Int) : List OccupancyOpen → List DbOp
  | [] => []
  | r :: rest =>
    .insertHistory (archiveRecord r now) :: .deleteOpenRow r.machineID :: remainingOps now rest

/-- Derived characterization (used to state lemmas): the open-table row a
snapshot item leaves behind, as a function of the row previously stored for
its machine. -/
def reconcileRowSpec (c : Int → MachineStateType) (now : Int) (item : ApiItem) :
    Option OccupancyOpen → Option OccupancyOpen
  | some old =>
    if item.state = old.status then some old
    else if c item.state = .idle then none
    else some (prepareOccupancy item now c)
  | none => if c item.state = .idle then none else some (prepareOccupancy item now c)

/-- Derived characterization (used to state lemmas): the machine IDs the
snapshot-processing loop appends to the notify list, in order. -/
def notifySpec (c : Int → MachineStateType) : List ApiItem → List OccupancyOpen → List Int
  | [], _ => []
  | item :: rest, pending =>
    match lookupOpen pending item.id with
    | some old =>
      let tail := notifySpec c rest (deleteOpen pending item.id)
      if item.state = old.status then tail
      else if c item.state = .idle then item.id :: tail
      else tail
    | none => notifySpec c rest pending

/-- A concrete classifier for evaluating the development on closed inputs:
code 1 is idle, 2 occupied, 3 faulty, anything else unknown (the shape of the
classifier in the store tests). -/
def sampleClassify (c : Int) : MachineStateType :=
  if c = 1 then .idle else if c = 2 then .occupied else if c = 3 then .faulty else .unknown

/-! ### Basic lemmas about the open-table operations -/

@[simp]
theorem prepareOccupancy_machineID (item : ApiItem) (now : Int)
    (c : Int → MachineStateType) : (prepareOccupancy item now c).machineID = item.id := rfl

@[simp]
theorem prepareOccupancy_observedAt (item : ApiItem) (now : Int)
    (c : Int → MachineStateType) : (prepareOccupancy item now c).observedAt = now := rfl

@[simp]
theorem prepareOccupancy_status (item : ApiItem) (now : Int)
    (c : Int → MachineStateType) : (prepareOccupancy item now c).status = item.state := rfl

@[simp]
theorem archiveRecord_machineID (r : OccupancyOpen) (t : Int) :
    (archiveRecord r t).machineID = r.machineID := rfl

@[simp]
theorem archiveRecord_periodStart (r : OccupancyOpen) (t : Int) :
    (archiveRecord r t).periodStart = r.observedAt := rfl

theorem lookupOpen_eq_some {t : List OccupancyOpen} {id : Int} {r : OccupancyOpen}
    (h : lookupOpen t id = some r) : r ∈ t ∧ r.machineID = id := by
  refine ⟨List.mem_of_find?_eq_some h, ?_⟩
  simpa [beq_iff_eq] using List.find?_some h

theorem lookupOpen_eq_none {t : List OccupancyOpen} {id : Int} :
    lookupOpen t id = none ↔ ∀ r ∈ t, r.machineID ≠ id := by
  simp [lookupOpen, List.find?_eq_none]

theorem mem_deleteOpen {r : OccupancyOpen} {t : List OccupancyOpen} {id : Int} :
    r ∈ deleteOpen t id ↔ r ∈ t ∧ r.machineID ≠ id := by
  simp [deleteOpen, List.mem_filter]

theorem lookupOpen_deleteOpen_self (t : List OccupancyOpen) (id : Int) :
    lookupOpen (deleteOpen t id) id = none := by
  rw [lookupOpen_eq_none]
  intro r hr
  exact (mem_deleteOpen.mp hr).2

theorem find?_filter_of_imp {α : Type} (l : List α) (p q : α → Bool)
    (h : ∀ a, p a = true → q a = true) : (l.filter q).find? p = l.find? p := by
  induction l with
  | nil => rfl
  | cons a l ih =>
    rw [List.filter_cons]
    by_cases hq : q a = true
    · cases hpa : p a <;> simp [hq, List.find?_cons, hpa, ih]
    · have hpa : p a = false := by
        cases hpa : p a
        · rfl
        · exact absurd (h a hpa) hq
      simp [hq, List.find?_cons, hpa, ih]

theorem lookupOpen_deleteOpen_ne {m id : Int} (h : m ≠ id) (t : List OccupancyOpen) :
    lookupOpen (deleteOpen t id) m = lookupOpen t m := by
  refine find?_filter_of_imp t _ _ ?_
  intro r hp
  have : r.machineID = m := by simpa [beq_iff_eq] using hp
  simp [this]
  exact h

theorem lookupOpen_append (t₁ t₂ : List OccupancyOpen) (m : Int) :
    lookupOpen (t₁ ++ t₂) m = (lookupOpen t₁ m).or (lookupOpen t₂ m) :=
  List.find?_append ..

theorem lookupOpen_saveOpen_self (t : List OccupancyOpen) (r : OccupancyOpen) :
    lookupOpen (saveOpen t r) r.machineID = some r := by
  rw [saveOpen, lookupOpen_append, lookupOpen_deleteOpen_self]
  simp [lookupOpen]

theorem lookupOpen_saveOpen_ne {m : Int} {r : OccupancyOpen} (h : m ≠ r.machineID)
    (t : List OccupancyOpen) : lookupOpen (saveOpen t r) m = lookupOpen t m := by
  rw [saveOpen, lookupOpen_append, lookupOpen_deleteOpen_ne h]
  have h1 : lookupOpen [r] m = none := by
    simp [lookupOpen, Ne.symm h]
  rw [h1]
  cases lookupOpen t m <;> rfl

theorem lookupOpen_append_single_ne {m : Int} {r : OccupancyOpen} (h : m ≠ r.machineID)
    (t : List OccupancyOpen) : lookupOpen (t ++ [r]) m = lookupOpen t m := by
  rw [lookupOpen_append]
  have h1 : lookupOpen [r] m = none := by
    simp [lookupOpen, Ne.symm h]
  rw [h1]
  cases lookupOpen t m <;> rfl

theorem lookupOpen_append_single_self {t : List OccupancyOpen} {r : OccupancyOpen}
    (h : lookupOpen t r.machineID = none) :
    lookupOpen (t ++ [r]) r.machineID = some r := by
  rw [lookupOpen_append, h]
  simp [lookupOpen]

/-! ### Unfolding lemmas for the snapshot-processing loop -/

theorem processItems_cons_some {c : Int → MachineStateType} {now : Int} {item : ApiItem}
    {rest : List ApiItem} {pending : List OccupancyOpen} {st : TxState}
    {oldRecord : OccupancyOpen} (hlk : lookupOpen pending item.id = some oldRecord) :
    processItems c now (item :: rest) pending st =
      processItems c now rest (deleteOpen pending item.id)
        (if item.state = oldRecord.status then st
         else if c item.state = .idle then
           txNotify (txDeleteOpen (txInsertHistory st (archiveRecord oldRecord now))
             oldRecord.machineID) item.id
         else txSaveOpen (txInsertHistory st (archiveRecord oldRecord now))
           (prepareOccupancy item now c)) := by
  rw [processItems, hlk]

theorem processItems_cons_none_idle {c : Int → MachineStateType} {now : Int} {item : ApiItem}
    {rest : List ApiItem} {pending : List OccupancyOpen} {st : TxState}
    (hlk : lookupOpen pending item.id = none) (hidle : c item.state = .idle) :
    processItems c now (item :: rest) pending st = processItems c now rest pending st := by
  rw [processItems, hlk]
  simp [hidle]

theorem processItems_cons_none_create {c : Int → MachineStateType} {now : Int} {item : ApiItem}
    {rest : List ApiItem} {pending : List OccupancyOpen} {st : TxState}
    (hlk : lookupOpen pending item.id = none) (hnidle : c item.state ≠ .idle)
    (hdup : lookupOpen st.table item.id = none) :
    processItems c now (item :: rest) pending st =
      processItems c now rest pending
        { st with table := st.table ++ [prepareOccupancy item now c],
                  ops := st.ops ++ [.createOpenRow (prepareOccupancy item now c)] } := by
  rw [processItems, hlk]
  simp only [hnidle, if_neg, txCreateOpen, prepareOccupancy_machineID, hdup]
  rfl

theorem processItems_cons_none_dup {c : Int → MachineStateType} {now : Int} {item : ApiItem}
    {rest : List ApiItem} {pending : List OccupancyOpen} {st : TxState} {r : OccupancyOpen}
    (hlk : lookupOpen pending item.id = none) (hnidle : c item.state ≠ .idle)
    (hdup : lookupOpen st.table item.id = some r) :
    processItems c now (item :: rest) pending st =
      .error "duplicate key value violates unique constraint" := by
  rw [processItems, hlk]
  simp only [hnidle, if_neg, txCreateOpen, prepareOccupancy_machineID, hdup]
  rfl

/-! ### Structural lemmas about the transaction body -/

theorem processItems_ops_writes {c : Int → MachineStateType} {now : Int} :
    ∀ {items : List ApiItem} {pending : List OccupancyOpen} {st st' : TxState}
      {pending' : List OccupancyOpen},
      processItems c now items pending st = .ok (st', pending') →
      (∀ op ∈ st.ops, op.isWrite = true) → ∀ op ∈ st'.ops, op.isWrite = true := by
  intro items
  induction items with
  | nil =>
    intro pending st st' pending' h hops
    simp only [processItems, Except.ok.injEq, Prod.mk.injEq] at h
    obtain ⟨rfl, rfl⟩ := h
    exact hops
  | cons item rest ih =>
    intro pending st st' pending' h hops
    cases hlk : lookupOpen pending item.id with
    | some old =>
      rw [processItems_cons_some hlk] at h
      refine ih h ?_
      by_cases hst : item.state = old.status
      · simpa [hst] using hops
      · by_cases hidle : c item.state = .idle
        · intro op hop
          simp only [hst, if_neg, hidle, if_pos, txNotify, txDeleteOpen, txInsertHistory,
            List.mem_append, List.mem_singleton, if_true, ite_false, ite_true] at hop
          rcases hop with (h1 | rfl) | rfl
          · exact hops op h1
          · rfl
          · rfl
        · intro op hop
          simp only [hst, hidle, txSaveOpen, txInsertHistory, List.mem_append,
            List.mem_singleton, ite_false, ite_true, if_neg] at hop
          rcases hop with (h1 | rfl) | rfl
          · exact hops op h1
          · rfl
          · rfl
    | none =>
      by_cases hidle : c item.state = .idle
      · rw [processItems_cons_none_idle hlk hidle] at h
        exact ih h hops
      · cases hdup : lookupOpen st.table item.id with
        | some r =>
          rw [processItems_cons_none_dup hlk hidle hdup] at h
          simp at h
        | none =>
          rw [processItems_cons_none_create hlk hidle hdup] at h
          refine ih h ?_
          intro op hop
          simp only [List.mem_append, List.mem_singleton] at hop
          rcases hop with h1 | rfl
          · exact hops op h1
          · rfl

@[simp]
theorem idsOf_nil : idsOf [] = [] := rfl

@[simp]
theorem idsOf_cons (item : ApiItem) (rest : List ApiItem) :
    idsOf (item :: rest) = item.id :: idsOf rest := rfl

@[simp]
theorem midsOf_nil : midsOf [] = [] := rfl

@[simp]
theorem midsOf_cons (r : OccupancyOpen) (rest : List OccupancyOpen) :
    midsOf (r :: rest) = r.machineID :: midsOf rest := rfl

theorem processItems_notify {c : Int → MachineStateType} {now : Int} :
    ∀ {items : List ApiItem} {pending : List OccupancyOpen} {st st' : TxState}
      {pending' : List OccupancyOpen},
      processItems c now items pending st = .ok (st', pending') →
      ∃ extra, st'.notify = st.notify ++ extra ∧ ∀ m ∈ extra, m ∈ idsOf items := by
  intro items
  induction items with
  | nil =>
    intro pending st st' pending' h
    simp only [processItems, Except.ok.injEq, Prod.mk.injEq] at h
    obtain ⟨rfl, rfl⟩ := h
    exact ⟨[], by simp, by simp⟩
  | cons item rest ih =>
    intro pending st st' pending' h
    cases hlk : lookupOpen pending item.id with
    | some old =>
      rw [processItems_cons_some hlk] at h
      obtain ⟨extra, he, hsub⟩ := ih h
      by_cases hst : item.state = old.status
      · simp only [hst, ite_true, if_pos] at he
        exact ⟨extra, he, fun m hm => List.mem_cons_of_mem _ (hsub m hm)⟩
      · by_cases hidle : c item.state = .idle
        · simp only [hst, hidle, ite_true, ite_false, if_neg, if_pos, txNotify,
            txDeleteOpen, txInsertHistory] at he
          refine ⟨item.id :: extra, by simpa [List.append_assoc] using he, ?_⟩
          intro m hm
          rcases List.mem_cons.mp hm with rfl | hm
          · exact List.mem_cons_self _ _
          · exact List.mem_cons_of_mem _ (hsub m hm)
        · simp only [hst, hidle, ite_false, if_neg, txSaveOpen, txInsertHistory] at he
          exact ⟨extra, he, fun m hm => List.mem_cons_of_mem _ (hsub m hm)⟩
    | none =>
      by_cases hidle : c item.state = .idle
      · rw [processItems_cons_none_idle hlk hidle] at h
        obtain ⟨extra, he, hsub⟩ := ih h
        exact ⟨extra, he, fun m hm => List.mem_cons_of_mem _ (hsub m hm)⟩
      · cases hdup : lookupOpen st.table item.id with
        | some r =>
          rw [processItems_cons_none_dup hlk hidle hdup] at h
          simp at h
        | none =>
          rw [processItems_cons_none_create hlk hidle hdup] at h
          obtain ⟨extra, he, hsub⟩ := ih h
          exact ⟨extra, by simpa using he, fun m hm => List.mem_cons_of_mem _ (hsub m hm)⟩

theorem processItems_history {c : Int → MachineStateType} {now : Int} :
    ∀ {items : List ApiItem} {pending : List OccupancyOpen} {st st' : TxState}
      {pending' : List OccupancyOpen},
      processItems c now items pending st = .ok (st', pending') →
      ∃ extra, st'.history = st.history ++ extra ∧ ∀ x ∈ extra, x.machineID ∈ idsOf items := by
  intro items
  induction items with
  | nil =>
    intro pending st st' pending' h
    simp only [processItems, Except.ok.injEq, Prod.mk.injEq] at h
    obtain ⟨rfl, rfl⟩ := h
    exact ⟨[], by simp, by simp⟩
  | cons item rest ih =>
    intro pending st st' pending' h
    cases hlk : lookupOpen pending item.id with
    | some old =>
      have hmid : old.machineID = item.id := (lookupOpen_eq_some hlk).2
      rw [processItems_cons_some hlk] at h
      obtain ⟨extra, he, hsub⟩ := ih h
      by_cases hst : item.state = old.status
      · simp only [hst, ite_true, if_pos] at he
        exact ⟨extra, he, fun x hx => List.mem_cons_of_mem _ (hsub x hx)⟩
      · by_cases hidle : c item.state = .idle
        · simp only [hst, hidle, ite_true, ite_false, if_neg, if_pos, txNotify,
            txDeleteOpen, txInsertHistory] at he
          refine ⟨archiveRecord old now :: extra, by simpa [List.append_assoc] using he, ?_⟩
          intro x hx
          rcases List.mem_cons.mp hx with rfl | hx
          · simp [hmid]
          · exact List.mem_cons_of_mem _ (hsub x hx)
        · simp only [hst, hidle, ite_false, if_neg, txSaveOpen, txInsertHistory] at he
          refine ⟨archiveRecord old now :: extra, by simpa [List.append_assoc] using he, ?_⟩
          intro x hx
          rcases List.mem_cons.mp hx with rfl | hx
          · simp [hmid]
          · exact List.mem_cons_of_mem _ (hsub x hx)
    | none =>
      by_cases hidle : c item.state = .idle
      · rw [processItems_cons_none_idle hlk hidle] at h
        obtain ⟨extra, he, hsub⟩ := ih h
        exact ⟨extra, he, fun x hx => List.mem_cons_of_mem _ (hsub x hx)⟩
      · cases hdup : lookupOpen st.table item.id with
        | some r =>
          rw [processItems_cons_none_dup hlk hidle hdup] at h
          simp at h
        | none =>
          rw [processItems_cons_none_create hlk hidle hdup] at h
          obtain ⟨extra, he, hsub⟩ := ih h
          exact ⟨extra, by simpa using he, fun x hx => List.mem_cons_of_mem _ (hsub x hx)⟩

theorem processItems_pending {c : Int → MachineStateType} {now : Int} :
    ∀ {items : List ApiItem} {pending : List OccupancyOpen} {st st' : TxState}
      {pending' : List OccupancyOpen},
      processItems c now items pending st = .ok (st', pending') →
      pending' = pending.filter (fun r => !((idsOf items).contains r.machineID)) := by
  intro items
  induction items with
  | nil =>
    intro pending st st' pending' h
    simp only [processItems, Except.ok.injEq, Prod.mk.injEq] at h
    obtain ⟨rfl, rfl⟩ := h
    simp
  | cons item rest ih =>
    intro pending st st' pending' h
    cases hlk : lookupOpen pending item.id with
    | some old =>
      rw [processItems_cons_some hlk] at h
      have h2 := ih h
      rw [h2, deleteOpen, List.filter_filter]
      refine List.filter_congr ?_
      intro r _
      by_cases hr : r.machineID = item.id <;>
        simp [hr, List.contains_cons, bne]
    | none =>
      have hne : ∀ r ∈ pending, r.machineID ≠ item.id := lookupOpen_eq_none.mp hlk
      have hcongr : pending.filter (fun r => !((idsOf rest).contains r.machineID)) =
          pending.filter (fun r => !((idsOf (item :: rest)).contains r.machineID)) := by
        refine List.filter_congr ?_
        intro r hr
        simp [List.contains_cons, hne r hr]
      by_cases hidle : c item.state = .idle
      · rw [processItems_cons_none_idle hlk hidle] at h
        rw [ih h, hcongr]
      · cases hdup : lookupOpen st.table item.id with
        | some r =>
          rw [processItems_cons_none_dup hlk hidle hdup] at h
          simp at h
        | none =>
          rw [processItems_cons_none_create hlk hidle hdup] at h
          rw [ih h, hcongr]

theorem processItems_table_untouched {c : Int → MachineStateType} {now : Int} :
    ∀ {items : List ApiItem} {pending : List OccupancyOpen} {st st' : TxState}
      {pending' : List OccupancyOpen} {m : Int},
      processItems c now items pending st = .ok (st', pending') →
      m ∉ idsOf items → lookupOpen st'.table m = lookupOpen st.table m := by
  intro items
  induction items with
  | nil =>
    intro pending st st' pending' m h _
    simp only [processItems, Except.ok.injEq, Prod.mk.injEq] at h
    obtain ⟨rfl, rfl⟩ := h
    rfl
  | cons item rest ih =>
    intro pending st st' pending' m h hm
    have hmne : m ≠ item.id := fun hc => hm (by simp [hc])
    have hmrest : m ∉ idsOf rest := fun hc => hm (by simp [hc])
    cases hlk : lookupOpen pending item.id with
    | some old =>
      have hmid : old.machineID = item.id := (lookupOpen_eq_some hlk).2
      rw [processItems_cons_some hlk] at h
      have h2 := ih h hmrest
      rw [h2]
      by_cases hst : item.state = old.status
      · simp [hst]
      · by_cases hidle : c item.state = .idle
        · simp only [hst, hidle, ite_true, ite_false, if_neg, if_pos, txNotify,
            txDeleteOpen, txInsertHistory]
          exact lookupOpen_deleteOpen_ne (hmid ▸ hmne) _
        · simp only [hst, hidle, ite_false, if_neg, txSaveOpen, txInsertHistory]
          exact lookupOpen_saveOpen_ne (by simpa using hmne) _
    | none =>
      by_cases hidle : c item.state = .idle
      · rw [processItems_cons_none_idle hlk hidle] at h
        exact ih h hmrest
      · cases hdup : lookupOpen st.table item.id with
        | some r =>
          rw [processItems_cons_none_dup hlk hidle hdup] at h
          simp at h
        | none =>
          rw [processItems_cons_none_create hlk hidle hdup] at h
          have h2 := ih h hmrest
          rw [h2]
          exact lookupOpen_append_single_ne (by simpa using hmne) _

/-! ### The trailing archival loop and table well-formedness -/

theorem archiveRemaining_spec (now : Int) :
    ∀ (rem : List OccupancyOpen) (st : TxState),
      (archiveRemaining now rem st).table = deleteAll st.table rem ∧
      (archiveRemaining now rem st).history =
        st.history ++ rem.map (fun r => archiveRecord r now) ∧
      (archiveRemaining now rem st).notify = st.notify ∧
      (archiveRemaining now rem st).ops = st.ops ++ remainingOps now rem := by
  intro rem
  induction rem with
  | nil =>
    intro st
    simp [archiveRemaining, deleteAll, remainingOps]
  | cons r rest ih =>
    intro st
    obtain ⟨h1, h2, h3, h4⟩ := ih (txDeleteOpen (txInsertHistory st (archiveRecord r now)) r.machineID)
    refine ⟨?_, ?_, ?_, ?_⟩
    · rw [archiveRemaining, h1]
      simp [deleteAll, txDeleteOpen, txInsertHistory]
    · rw [archiveRemaining, h2]
      simp [txDeleteOpen, txInsertHistory]
    · rw [archiveRemaining, h3]
      simp [txDeleteOpen, txInsertHistory]
    · rw [archiveRemaining, h4]
      simp [txDeleteOpen, txInsertHistory, remainingOps]

theorem mem_deleteAll {x : OccupancyOpen} :
    ∀ {rem t : List OccupancyOpen},
      x ∈ deleteAll t rem ↔ x ∈ t ∧ x.machineID ∉ midsOf rem := by
  intro rem
  induction rem with
  | nil => intro t; simp [deleteAll]
  | cons r rest ih =>
    intro t
    have : deleteAll t (r :: rest) = deleteAll (deleteOpen t r.machineID) rest := rfl
    rw [this, ih]
    constructor
    · rintro ⟨hx, hnm⟩
      obtain ⟨hx, hne⟩ := mem_deleteOpen.mp hx
      refine ⟨hx, ?_⟩
      simp only [midsOf_cons, List.mem_cons]
      rintro (hc | hc)
      · exact hne hc
      · exact hnm hc
    · rintro ⟨hx, hnm⟩
      simp only [midsOf_cons, List.mem_cons] at hnm
      push_neg at hnm
      exact ⟨mem_deleteOpen.mpr ⟨hx, hnm.1⟩, hnm.2⟩

theorem lookupOpen_deleteAll_not_mem :
    ∀ {rem : List OccupancyOpen} {t : List OccupancyOpen} {m : Int}, m ∉ midsOf rem →
      lookupOpen (deleteAll t rem) m = lookupOpen t m := by
  intro rem
  induction rem with
  | nil => intro t m _; rfl
  | cons r rest ih =>
    intro t m hm
    have hne : m ≠ r.machineID := fun hc => hm (by simp [hc])
    have hrest : m ∉ midsOf rest := fun hc => hm (by simp [hc])
    have : deleteAll t (r :: rest) = deleteAll (deleteOpen t r.machineID) rest := rfl
    rw [this, ih hrest, lookupOpen_deleteOpen_ne hne]

theorem lookupOpen_deleteAll_mem :
    ∀ {rem : List OccupancyOpen} {t : List OccupancyOpen} {m : Int}, m ∈ midsOf rem →
      lookupOpen (deleteAll t rem) m = none := by
  intro rem
  induction rem with
  | nil => intro t m hm; simp at hm
  | cons r rest ih =>
    intro t m hm
    have hstep : deleteAll t (r :: rest) = deleteAll (deleteOpen t r.machineID) rest := rfl
    by_cases hrest : m ∈ midsOf rest
    · rw [hstep, ih hrest]
    · have hme : m = r.machineID := by
        rcases List.mem_cons.mp (by simpa using hm) with hc | hc
        · exact hc
        · exact absurd hc hrest
      rw [hstep, lookupOpen_deleteAll_not_mem hrest, hme, lookupOpen_deleteOpen_self]

theorem deleteAll_sublist : ∀ (rem t : List OccupancyOpen), (deleteAll t rem).Sublist t := by
  intro rem
  induction rem with
  | nil => intro t; exact List.Sublist.refl t
  | cons r rest ih =>
    intro t
    have hstep : deleteAll t (r :: rest) = deleteAll (deleteOpen t r.machineID) rest := rfl
    rw [hstep]
    exact (ih _).trans (List.filter_sublist t)

theorem midsOf_sublist {t₁ t₂ : List OccupancyOpen} (h : t₁.Sublist t₂) :
    (midsOf t₁).Sublist (midsOf t₂) := h.map _

theorem mem_midsOf {t : List OccupancyOpen} {m : Int} :
    m ∈ midsOf t ↔ ∃ r ∈ t, r.machineID = m := by
  simp [midsOf, List.mem_map]

theorem midsOf_deleteOpen_not_mem (t : List OccupancyOpen) (id : Int) :
    id ∉ midsOf (deleteOpen t id) := by
  rw [mem_midsOf]
  rintro ⟨r, hr, hid⟩
  exact (mem_deleteOpen.mp hr).2 hid

theorem midsOf_saveOpen_nodup {t : List OccupancyOpen} (h : (midsOf t).Nodup)
    (r : OccupancyOpen) : (midsOf (saveOpen t r)).Nodup := by
  rw [saveOpen, midsOf, List.map_append]
  rw [List.nodup_append]
  refine ⟨h.sublist (midsOf_sublist (List.filter_sublist t)), by simp, ?_⟩
  intro a ha hb
  simp only [List.map_cons, List.map_nil, List.mem_singleton] at hb
  subst hb
  exact midsOf_deleteOpen_not_mem t r.machineID ha

theorem midsOf_create_nodup {t : List OccupancyOpen} {r : OccupancyOpen}
    (h : (midsOf t).Nodup) (hdup : lookupOpen t r.machineID = none) :
    (midsOf (t ++ [r])).Nodup := by
  rw [midsOf, List.map_append, List.nodup_append]
  refine ⟨h, by simp, ?_⟩
  intro a ha hb
  simp only [List.map_cons, List.map_nil, List.mem_singleton] at hb
  subst hb
  obtain ⟨x, hx, hxm⟩ := mem_midsOf.mp ha
  exact (lookupOpen_eq_none.mp hdup x hx) hxm

theorem processItems_table_nodup {c : Int → MachineStateType} {now : Int} :
    ∀ {items : List ApiItem} {pending : List OccupancyOpen} {st st' : TxState}
      {pending' : List OccupancyOpen},
      processItems c now items pending st = .ok (st', pending') →
      (midsOf st.table).Nodup → (midsOf st'.table).Nodup := by
  intro items
  induction items with
  | nil =>
    intro pending st st' pending' h hn
    simp only [processItems, Except.ok.injEq, Prod.mk.injEq] at h
    obtain ⟨rfl, rfl⟩ := h
    exact hn
  | cons item rest ih =>
    intro pending st st' pending' h hn
    cases hlk : lookupOpen pending item.id with
    | some old =>
      rw [processItems_cons_some hlk] at h
      refine ih h ?_
      by_cases hst : item.state = old.status
      · simpa [hst] using hn
      · by_cases hidle : c item.state = .idle
        · simp only [hst, hidle, ite_true, ite_false, if_neg, if_pos, txNotify,
            txDeleteOpen, txInsertHistory]
          exact hn.sublist (midsOf_sublist (List.filter_sublist _))
        · simp only [hst, hidle, ite_false, if_neg, txSaveOpen, txInsertHistory]
          exact midsOf_saveOpen_nodup hn _
    | none =>
      by_cases hidle : c item.state = .idle
      · rw [processItems_cons_none_idle hlk hidle] at h
        exact ih h hn
      · cases hdup : lookupOpen st.table item.id with
        | some r =>
          rw [processItems_cons_none_dup hlk hidle hdup] at h
          simp at h
        | none =>
          rw [processItems_cons_none_create hlk hidle hdup] at h
          exact ih h (midsOf_create_nodup hn (by simpa using hdup))

theorem processItems_table_nonidle {c : Int → MachineStateType} {now : Int} :
    ∀ {items : List ApiItem} {pending : List OccupancyOpen} {st st' : TxState}
      {pending' : List OccupancyOpen},
      processItems c now items pending st = .ok (st', pending') →
      (∀ r ∈ st.table, c r.status ≠ .idle) → ∀ r ∈ st'.table, c r.status ≠ .idle := by
  intro items
  induction items with
  | nil =>
    intro pending st st' pending' h hni
    simp only [processItems, Except.ok.injEq, Prod.mk.injEq] at h
    obtain ⟨rfl, rfl⟩ := h
    exact hni
  | cons item rest ih =>
    intro pending st st' pending' h hni
    cases hlk : lookupOpen pending item.id with
    | some old =>
      rw [processItems_cons_some hlk] at h
      refine ih h ?_
      by_cases hst : item.state = old.status
      · simpa [hst] using hni
      · by_cases hidle : c item.state = .idle
        · simp only [hst, hidle, ite_true, ite_false, if_neg, if_pos, txNotify,
            txDeleteOpen, txInsertHistory]
          intro r hr
          exact hni r (mem_deleteOpen.mp hr).1
        · simp only [hst, hidle, ite_false, if_neg, txSaveOpen, txInsertHistory]
          intro r hr
          rcases List.mem_append.mp hr with hr | hr
          · exact hni r (mem_deleteOpen.mp hr).1
          · rw [List.mem_singleton.mp hr]
            simpa using hidle
    | none =>
      by_cases hidle : c item.state = .idle
      · rw [processItems_cons_none_idle hlk hidle] at h
        exact ih h hni
      · cases hdup : lookupOpen st.table item.id with
        | some r =>
          rw [processItems_cons_none_dup hlk hidle hdup] at h
          simp at h
        | none =>
          rw [processItems_cons_none_create hlk hidle hdup] at h
          refine ih h ?_
          intro r hr
          rcases List.mem_append.mp hr with hr | hr
          · exact hni r hr
          · rw [List.mem_singleton.mp hr]
            simpa using hidle

theorem deleteOpen_eq_self {t : List OccupancyOpen} {id : Int}
    (h : id ∉ midsOf t) : deleteOpen t id = t := by
  refine List.filter_eq_self.mpr ?_
  intro r hr
  have : r.machineID ≠ id := fun hc => h (mem_midsOf.mpr ⟨r, hr, hc⟩)
  simpa using this

theorem buildPending_eq_self {rows : List OccupancyOpen}
    (h : (midsOf rows).Nodup) : buildPending rows = rows := by
  suffices hgen : ∀ (rows acc : List OccupancyOpen),
      (midsOf acc ++ midsOf rows).Nodup → rows.foldl (fun a r => saveOpen a r) acc = acc ++ rows by
    simpa [buildPending] using hgen rows [] (by simpa using h)
  intro rows
  induction rows with
  | nil => intro acc _; simp
  | cons r rest ih =>
    intro acc hn
    have hnm : r.machineID ∉ midsOf acc := by
      intro hc
      rw [List.nodup_append] at hn
      exact hn.2.2 hc (by simp)
    have hsave : saveOpen acc r = acc ++ [r] := by
      rw [saveOpen, deleteOpen_eq_self hnm]
    rw [List.foldl_cons, hsave, ih (acc ++ [r]) (by simpa [midsOf, List.nodup_append] using
      (by simpa [midsOf] using hn : ((midsOf acc ++ [r.machineID]) ++ midsOf rest).Nodup))]
    simp

/-! ### Characterization of the final open-table rows -/

theorem processItems_lookup_spec {c : Int → MachineStateType} {now : Int} :
    ∀ {items : List ApiItem} {pending : List OccupancyOpen} {st st' : TxState}
      {pending' : List OccupancyOpen},
      processItems c now items pending st = .ok (st', pending') →
      (idsOf items).Nodup →
      (∀ it ∈ items, lookupOpen st.table it.id = lookupOpen pending it.id) →
      ∀ it ∈ items, lookupOpen st'.table it.id =
        reconcileRowSpec c now it (lookupOpen pending it.id) := by
  intro items
  induction items with
  | nil =>
    intro pending st st' pending' h _ _ it hit
    simp at hit
  | cons item rest ih =>
    intro pending st st' pending' h hnd hagree it hit
    have hnd' : (idsOf rest).Nodup := (List.nodup_cons.mp (by simpa using hnd)).2
    have hhead : item.id ∉ idsOf rest := (List.nodup_cons.mp (by simpa using hnd)).1
    cases hlk : lookupOpen pending item.id with
    | some old =>
      have hmid : old.machineID = item.id := (lookupOpen_eq_some hlk).2
      rw [processItems_cons_some hlk] at h
      have hagree' : ∀ x ∈ rest,
          lookupOpen (if item.state = old.status then st
            else if c item.state = .idle then
              txNotify (txDeleteOpen (txInsertHistory st (archiveRecord old now))
                old.machineID) item.id
            else txSaveOpen (txInsertHistory st (archiveRecord old now))
              (prepareOccupancy item now c)).table x.id =
          lookupOpen (deleteOpen pending item.id) x.id := by
        intro x hx
        have hxne : x.id ≠ item.id := fun hc => hhead (hc ▸ List.mem_map_of_mem _ hx)
        rw [lookupOpen_deleteOpen_ne hxne]
        by_cases hst : item.state = old.status
        · rw [if_pos hst]
          exact hagree x (List.mem_cons_of_mem _ hx)
        · by_cases hidle : c item.state = .idle
          · simp only [hst, hidle, ite_true, ite_false, if_neg, if_pos, txNotify,
              txDeleteOpen, txInsertHistory]
            rw [hmid, lookupOpen_deleteOpen_ne hxne]
            exact hagree x (List.mem_cons_of_mem _ hx)
          · simp only [hst, hidle, ite_false, if_neg, txSaveOpen, txInsertHistory]
            rw [lookupOpen_saveOpen_ne (by simpa using hxne)]
            exact hagree x (List.mem_cons_of_mem _ hx)
      rcases List.mem_cons.mp hit with rfl | hit'
      · -- the head item: later steps do not touch its row
        have huntouched := processItems_table_untouched h hhead
        rw [huntouched, hlk]
        by_cases hst : it.state = old.status
        · simp only [hst, ite_true, if_pos, reconcileRowSpec]
          rw [hagree it (List.mem_cons_self _ _), hlk]
        · by_cases hidle : c it.state = .idle
          · simp only [hst, hidle, ite_true, ite_false, if_neg, if_pos, txNotify,
              txDeleteOpen, txInsertHistory, reconcileRowSpec]
            rw [hmid, lookupOpen_deleteOpen_self]
          · simp only [hst, hidle, ite_false, if_neg, txSaveOpen, txInsertHistory,
              reconcileRowSpec]
            have := lookupOpen_saveOpen_self ((txInsertHistory st (archiveRecord old now)).table)
              (prepareOccupancy it now c)
            simpa [txInsertHistory] using this
      · have := ih h hnd' hagree' it hit'
        rw [this, lookupOpen_deleteOpen_ne
          (fun hc : it.id = item.id => hhead (hc ▸ List.mem_map_of_mem _ hit'))]
    | none =>
      by_cases hidle : c item.state = .idle
      · rw [processItems_cons_none_idle hlk hidle] at h
        rcases List.mem_cons.mp hit with rfl | hit'
        · have huntouched := processItems_table_untouched h hhead
          rw [huntouched, hlk]
          simp only [reconcileRowSpec, hidle, ite_true, if_pos]
          rw [hagree it (List.mem_cons_self _ _), hlk]
        · exact ih h hnd' (fun x hx => hagree x (List.mem_cons_of_mem _ hx)) it hit'
      · cases hdup : lookupOpen st.table item.id with
        | some r =>
          rw [processItems_cons_none_dup hlk hidle hdup] at h
          simp at h
        | none =>
          rw [processItems_cons_none_create hlk hidle hdup] at h
          rcases List.mem_cons.mp hit with rfl | hit'
          · have huntouched := processItems_table_untouched h hhead
            rw [huntouched, hlk]
            simp only [reconcileRowSpec, hidle, ite_false, if_neg]
            have : lookupOpen (st.table ++ [prepareOccupancy it now c])
                ((prepareOccupancy it now c).machineID) = some (prepareOccupancy it now c) :=
              lookupOpen_append_single_self (by simpa using hdup)
            simpa using this
          · refine ih h hnd' ?_ it hit'
            intro x hx
            have hxne : x.id ≠ item.id := fun hc => hhead (hc ▸ List.mem_map_of_mem _ hx)
            have : lookupOpen (st.table ++ [prepareOccupancy item now c]) x.id =
                lookupOpen st.table x.id :=
              lookupOpen_append_single_ne (by simpa using hxne) _
            simpa [this] using hagree x (List.mem_cons_of_mem _ hx)

/-- When every snapshot item matches the stored row (same status) or is idle
with no stored row, the processing loop performs no write and leaves the
transaction state exactly as it was. -/
theorem processItems_noop {c : Int → MachineStateType} {now : Int} :
    ∀ {items : List ApiItem} {pending : List OccupancyOpen} {st : TxState},
      (idsOf items).Nodup →
      (∀ it ∈ items, (match lookupOpen pending it.id with
        | some old => old.status = it.state
        | none => c it.state = .idle)) →
      ∃ pending', processItems c now items pending st = .ok (st, pending') := by
  intro items
  induction items with
  | nil =>
    intro pending st _ _
    exact ⟨pending, rfl⟩
  | cons item rest ih =>
    intro pending st hnd hmatch
    have hnd' : (idsOf rest).Nodup := (List.nodup_cons.mp (by simpa using hnd)).2
    have hhead : item.id ∉ idsOf rest := (List.nodup_cons.mp (by simpa using hnd)).1
    cases hlk : lookupOpen pending item.id with
    | some old =>
      have hst : item.state = old.status := by
        have := hmatch item (List.mem_cons_self _ _)
        rw [hlk] at this
        exact this.symm
      rw [processItems_cons_some hlk, if_pos hst]
      refine ih hnd' ?_
      intro x hx
      have hxne : x.id ≠ item.id := fun hc => hhead (hc ▸ List.mem_map_of_mem _ hx)
      rw [lookupOpen_deleteOpen_ne hxne]
      exact hmatch x (List.mem_cons_of_mem _ hx)
    | none =>
      have hidle : c item.state = .idle := by
        have := hmatch item (List.mem_cons_self _ _)
        rw [hlk] at this
        exact this
      rw [processItems_cons_none_idle hlk hidle]
      exact ih hnd' (fun x hx => hmatch x (List.mem_cons_of_mem _ hx))

/-! ### The notify list -/

theorem processItems_notify_eq {c : Int → MachineStateType} {now : Int} :
    ∀ {items : List ApiItem} {pending : List OccupancyOpen} {st st' : TxState}
      {pending' : List OccupancyOpen},
      processItems c now items pending st = .ok (st', pending') →
      st'.notify = st.notify ++ notifySpec c items pending := by
  intro items
  induction items with
  | nil =>
    intro pending st st' pending' h
    simp only [processItems, Except.ok.injEq, Prod.mk.injEq] at h
    obtain ⟨rfl, rfl⟩ := h
    simp [notifySpec]
  | cons item rest ih =>
    intro pending st st' pending' h
    cases hlk : lookupOpen pending item.id with
    | some old =>
      rw [processItems_cons_some hlk] at h
      have h2 := ih h
      rw [h2]
      by_cases hst : item.state = old.status
      · simp [notifySpec, hlk, hst]
      · by_cases hidle : c item.state = .idle
        · simp [notifySpec, hlk, hst, hidle, txNotify, txDeleteOpen, txInsertHistory]
        · simp [notifySpec, hlk, hst, hidle, txSaveOpen, txInsertHistory]
    | none =>
      by_cases hidle : c item.state = .idle
      · rw [processItems_cons_none_idle hlk hidle] at h
        rw [ih h]
        simp [notifySpec, hlk]
      · cases hdup : lookupOpen st.table item.id with
        | some r =>
          rw [processItems_cons_none_dup hlk hidle hdup] at h
          simp at h
        | none =>
          rw [processItems_cons_none_create hlk hidle hdup] at h
          have h2 := ih h
          simp only at h2
          rw [h2]
          simp [notifySpec, hlk]

theorem mem_notifySpec {c : Int → MachineStateType} :
    ∀ {items : List ApiItem} {pending : List OccupancyOpen} {m : Int},
      (idsOf items).Nodup →
      (m ∈ notifySpec c items pending ↔
        ∃ old, lookupOpen pending m = some old ∧
          ∃ it ∈ items, it.id = m ∧ it.state ≠ old.status ∧ c it.state = .idle) := by
  intro items
  induction items with
  | nil =>
    intro pending m _
    simp [notifySpec]
  | cons item rest ih =>
    intro pending m hnd
    have hnd' : (idsOf rest).Nodup := (List.nodup_cons.mp (by simpa using hnd)).2
    have hhead : item.id ∉ idsOf rest := (List.nodup_cons.mp (by simpa using hnd)).1
    cases hlk : lookupOpen pending item.id with
    | some old =>
      by_cases hm : m = item.id
      · have htail : m ∉ notifySpec c rest (deleteOpen pending item.id) := by
          intro hc
          obtain ⟨old', hold', it, hit, hitid, -, -⟩ := (ih hnd').mp hc
          rw [hm, lookupOpen_deleteOpen_self] at hold'
          exact Option.noConfusion hold'
        constructor
        · intro hmem
          rw [notifySpec, hlk] at hmem
          simp only at hmem
          by_cases hst : item.state = old.status
          · rw [if_pos hst] at hmem
            exact absurd hmem htail
          · by_cases hidle : c item.state = .idle
            · exact ⟨old, by rw [hm]; exact hlk, item, List.mem_cons_self _ _,
                hm.symm, hst, hidle⟩
            · rw [if_neg hst, if_neg hidle] at hmem
              exact absurd hmem htail
        · rintro ⟨old', hold', it, hit, hitid, hne, hidle⟩
          rw [hm, hlk] at hold'
          obtain rfl : old' = old := by injection hold'.symm
          have hitem : it = item := by
            rcases List.mem_cons.mp hit with h | h
            · exact h
            · have : it.id ∈ idsOf rest := List.mem_map_of_mem _ h
              rw [hitid, hm] at this
              exact absurd this hhead
          subst hitem
          rw [notifySpec, hlk]
          simp only
          rw [if_neg hne, if_pos hidle, hm]
          exact List.mem_cons_self _ _
      · have hlk2 : lookupOpen (deleteOpen pending item.id) m = lookupOpen pending m :=
          lookupOpen_deleteOpen_ne hm _
        have htail := @ih (deleteOpen pending item.id) m hnd'
        rw [hlk2] at htail
        have hstep : m ∈ notifySpec c (item :: rest) pending ↔
            m ∈ notifySpec c rest (deleteOpen pending item.id) := by
          rw [notifySpec, hlk]
          simp only
          by_cases hst : item.state = old.status
          · rw [if_pos hst]
          · by_cases hidle : c item.state = .idle
            · rw [if_neg hst, if_pos hidle]
              simp [List.mem_cons, hm]
            · rw [if_neg hst, if_neg hidle]
        rw [hstep, htail]
        constructor
        · rintro ⟨old', hold', it, hit, rfl, hne, hidle⟩
          exact ⟨old', hold', it, List.mem_cons_of_mem _ hit, rfl, hne, hidle⟩
        · rintro ⟨old', hold', it, hit, rfl, hne, hidle⟩
          rcases List.mem_cons.mp hit with rfl | hit'
          · exact absurd rfl hm
          · exact ⟨old', hold', it, hit', rfl, hne, hidle⟩
    | none =>
      have hstep : notifySpec c (item :: rest) pending = notifySpec c rest pending := by
        rw [notifySpec, hlk]
      rw [hstep, ih hnd']
      constructor
      · rintro ⟨old', hold', it, hit, rfl, hne, hidle⟩
        exact ⟨old', hold', it, List.mem_cons_of_mem _ hit, rfl, hne, hidle⟩
      · rintro ⟨old', hold', it, hit, rfl, hne, hidle⟩
        rcases List.mem_cons.mp hit with rfl | hit'
        · rw [hlk] at hold'
          exact Option.noConfusion hold'
        · exact ⟨old', hold', it, hit', rfl, hne, hidle⟩

/-! ### Lemmas at the level of a whole reconciliation -/

theorem updateOccupancy_ok_inv {now : Int} {open0 : List OccupancyOpen}
    {items : List ApiItem} {c : Int → MachineStateType} {stF : TxState}
    (h : UpdateOccupancy now open0 items c = .ok stF) :
    ∃ st rem, processItems c now items (buildPending open0)
        { table := open0, history := [], notify := [], ops := [] } = .ok (st, rem) ∧
      stF = archiveRemaining now rem st := by
  rw [UpdateOccupancy] at h
  cases hpi : processItems c now items (buildPending open0)
      { table := open0, history := [], notify := [], ops := [] } with
  | error e => rw [hpi] at h; simp at h
  | ok p =>
    obtain ⟨st, rem⟩ := p
    rw [hpi] at h
    simp only [Except.ok.injEq] at h
    exact ⟨st, rem, rfl, h.symm⟩

theorem remainingOps_writes (now : Int) :
    ∀ (rem : List OccupancyOpen), ∀ op ∈ remainingOps now rem, op.isWrite = true := by
  intro rem
  induction rem with
  | nil => intro op hop; simp [remainingOps] at hop
  | cons r rest ih =>
    intro op hop
    rcases List.mem_cons.mp hop with rfl | hop
    · rfl
    · rcases List.mem_cons.mp hop with rfl | hop
      · rfl
      · exact ih op hop

theorem processItems_table_mem {c : Int → MachineStateType} {now : Int} :
    ∀ {items : List ApiItem} {pending : List OccupancyOpen} {st st' : TxState}
      {pending' : List OccupancyOpen},
      processItems c now items pending st = .ok (st', pending') →
      ∀ x ∈ st'.table, x ∈ st.table ∨ x.machineID ∈ idsOf items := by
  intro items
  induction items with
  | nil =>
    intro pending st st' pending' h x hx
    simp only [processItems, Except.ok.injEq, Prod.mk.injEq] at h
    obtain ⟨rfl, rfl⟩ := h
    exact Or.inl hx
  | cons item rest ih =>
    intro pending st st' pending' h x hx
    cases hlk : lookupOpen pending item.id with
    | some old =>
      rw [processItems_cons_some hlk] at h
      rcases ih h x hx with hx1 | hx1
      · by_cases hst : item.state = old.status
        · rw [if_pos hst] at hx1
          exact Or.inl hx1
        · by_cases hidle : c item.state = .idle
          · simp only [hst, hidle, ite_true, ite_false, if_neg, if_pos, txNotify,
              txDeleteOpen, txInsertHistory] at hx1
            exact Or.inl (mem_deleteOpen.mp hx1).1
          · simp only [hst, hidle, ite_false, if_neg, txSaveOpen, txInsertHistory] at hx1
            rcases List.mem_append.mp hx1 with hx2 | hx2
            · exact Or.inl (mem_deleteOpen.mp hx2).1
            · right
              rw [List.mem_singleton.mp hx2]
              simp
      · exact Or.inr (List.mem_cons_of_mem _ hx1)
    | none =>
      by_cases hidle : c item.state = .idle
      · rw [processItems_cons_none_idle hlk hidle] at h
        rcases ih h x hx with hx1 | hx1
        · exact Or.inl hx1
        · exact Or.inr (List.mem_cons_of_mem _ hx1)
      · cases hdup : lookupOpen st.table item.id with
        | some r =>
          rw [processItems_cons_none_dup hlk hidle hdup] at h
          simp at h
        | none =>
          rw [processItems_cons_none_create hlk hidle hdup] at h
          rcases ih h x hx with hx1 | hx1
          · rcases List.mem_append.mp hx1 with hx2 | hx2
            · exact Or.inl hx2
            · right
              rw [List.mem_singleton.mp hx2]
              simp
          · exact Or.inr (List.mem_cons_of_mem _ hx1)

theorem rem_mids_disjoint_ids {now : Int} {c : Int → MachineStateType}
    {items : List ApiItem} {pending : List OccupancyOpen} {st st' : TxState}
    {pending' : List OccupancyOpen}
    (h : processItems c now items pending st = .ok (st', pending')) :
    ∀ m ∈ midsOf pending', m ∉ idsOf items := by
  intro m hm hmem
  obtain ⟨x, hx, hxm⟩ := mem_midsOf.mp hm
  rw [processItems_pending h] at hx
  have := (List.mem_filter.mp hx).2
  rw [hxm] at this
  simp at this
  exact this hmem

theorem updateOccupancy_lookup_final {now : Int} {c : Int → MachineStateType}
    {items : List ApiItem} {open0 : List OccupancyOpen} {stF : TxState}
    (hids : (idsOf items).Nodup) (hmids : (midsOf open0).Nodup)
    (h : UpdateOccupancy now open0 items c = .ok stF) :
    ∀ it ∈ items, lookupOpen stF.table it.id =
      reconcileRowSpec c now it (lookupOpen open0 it.id) := by
  obtain ⟨st, rem, hpi, rfl⟩ := updateOccupancy_ok_inv h
  rw [buildPending_eq_self hmids] at hpi
  intro it hit
  have hspec := processItems_lookup_spec hpi hids (fun _ _ => rfl) it hit
  have hnotmem : it.id ∉ midsOf rem := by
    intro hc
    exact rem_mids_disjoint_ids hpi it.id hc (List.mem_map_of_mem _ hit)
  rw [(archiveRemaining_spec now rem st).1, lookupOpen_deleteAll_not_mem hnotmem, hspec]

theorem updateOccupancy_notify_eq {now : Int} {c : Int → MachineStateType}
    {items : List ApiItem} {open0 : List OccupancyOpen} {stF : TxState}
    (hmids : (midsOf open0).Nodup)
    (h : UpdateOccupancy now open0 items c = .ok stF) :
    stF.notify = notifySpec c items open0 := by
  obtain ⟨st, rem, hpi, rfl⟩ := updateOccupancy_ok_inv h
  rw [buildPending_eq_self hmids] at hpi
  rw [(archiveRemaining_spec now rem st).2.2.1, processItems_notify_eq hpi]
  simp

theorem updateOccupancy_table_nodup {now : Int} {c : Int → MachineStateType}
    {items : List ApiItem} {open0 : List OccupancyOpen} {stF : TxState}
    (hmids : (midsOf open0).Nodup)
    (h : UpdateOccupancy now open0 items c = .ok stF) :
    (midsOf stF.table).Nodup := by
  obtain ⟨st, rem, hpi, rfl⟩ := updateOccupancy_ok_inv h
  have h1 : (midsOf st.table).Nodup := processItems_table_nodup hpi hmids
  rw [(archiveRemaining_spec now rem st).1]
  exact h1.sublist (midsOf_sublist (deleteAll_sublist rem st.table))

theorem updateOccupancy_table_nonidle {now : Int} {c : Int → MachineStateType}
    {items : List ApiItem} {open0 : List OccupancyOpen} {stF : TxState}
    (hni : ∀ r ∈ open0, c r.status ≠ .idle)
    (h : UpdateOccupancy now open0 items c = .ok stF) :
    ∀ r ∈ stF.table, c r.status ≠ .idle := by
  obtain ⟨st, rem, hpi, rfl⟩ := updateOccupancy_ok_inv h
  have h1 : ∀ r ∈ st.table, c r.status ≠ .idle := processItems_table_nonidle hpi hni
  rw [(archiveRemaining_spec now rem st).1]
  intro r hr
  exact h1 r (mem_deleteAll.mp hr).1

theorem filter_mid_eq_single {t : List OccupancyOpen} {m : Int} {r : OccupancyOpen}
    (hnd : (midsOf t).Nodup) (h : lookupOpen t m = some r) :
    t.filter (fun x => x.machineID == m) = [r] := by
  induction t with
  | nil => simp [lookupOpen] at h
  | cons x rest ih =>
    have hnd' : (midsOf rest).Nodup := (List.nodup_cons.mp (by simpa using hnd)).2
    have hx : x.machineID ∉ midsOf rest := (List.nodup_cons.mp (by simpa using hnd)).1
    by_cases hxm : x.machineID = m
    · have hr : r = x := by
        rw [lookupOpen, List.find?_cons_of_pos _ (by simpa using hxm)] at h
        injection h.symm
      subst hr
      rw [List.filter_cons_of_pos (by simpa using hxm)]
      have hrest : rest.filter (fun y => y.machineID == m) = [] := by
        rw [List.filter_eq_nil_iff]
        intro y hy
        have : y.machineID ≠ m := by
          intro hc
          exact hx (by rw [← hxm] at hc; exact mem_midsOf.mpr ⟨y, hy, hc⟩)
        simpa using this
      rw [hrest]
    · rw [List.filter_cons_of_neg (by simpa using hxm)]
      refine ih hnd' ?_
      rw [lookupOpen, List.find?_cons_of_neg _ (by simpa using hxm)] at h
      exact h

theorem applyOpsFail_err {failOn : Nat → Bool} :
    ∀ (ops : List DbOp) (db : DbState) (i : Nat),
      (∃ j, j < ops.length ∧ failOn (i + j) = true) →
      ∃ e, applyOpsFail failOn ops db i = .error e := by
  intro ops
  induction ops with
  | nil =>
    rintro db i ⟨j, hj, -⟩
    simp at hj
  | cons op rest ih =>
    rintro db i ⟨j, hj, hf⟩
    by_cases h0 : failOn i = true
    · exact ⟨"write failed", by rw [applyOpsFail, if_pos h0]⟩
    · have hjne : j ≠ 0 := by
        rintro rfl
        simp at hf
        exact h0 hf
      obtain ⟨j', rfl⟩ := Nat.exists_eq_succ_of_ne_zero hjne
      have : ∃ j', j' < rest.length ∧ failOn (i + 1 + j') = true := by
        refine ⟨j', by simpa [Nat.succ_lt_succ_iff] using hj, ?_⟩
        rw [← hf]
        congr 1
        omega
      obtain ⟨e, he⟩ := ih (applyOp db op) (i + 1) this
      exact ⟨e, by rw [applyOpsFail, if_neg h0, he]⟩

/-! ## Claim theorems -/

/-- C2: every session archived by the reconciler gets period-start equal to
its observed-at `T0`; when its remaining estimate `R` is strictly positive
the history row's period-end is `T0 + R` seconds, and when it carried no
positive remaining estimate (`R ≤ 0`) the period-end is the observation time
`now` at which the closure was detected. -/
theorem archiveRecord_predicted_window (rec : OccupancyOpen) (now : Int) :
    (archiveRecord rec now).periodStart = rec.observedAt ∧
    (rec.timeRemaining > 0 →
      (archiveRecord rec now).periodEnd = rec.observedAt + rec.timeRemaining) ∧
    (rec.timeRemaining ≤ 0 → (archiveRecord rec now).periodEnd = now) := by
  refine ⟨rfl, ?_, ?_⟩
  · intro h
    simp [archiveRecord, if_pos h]
  · intro h
    simp [archiveRecord, if_neg (by omega : ¬ rec.timeRemaining > 0)]

/-- Witness for C2 at a session with 1800 s remaining observed at 100, and a
session with no remaining estimate closed at 4000. -/
theorem archiveRecord_predicted_window_witness :
    (archiveRecord ⟨7, 100, 2, "使用中", 1800⟩ 4000).periodEnd = 1900 ∧
    (archiveRecord ⟨7, 100, 3, "设备故障", 0⟩ 4000).periodEnd = 4000 := by
  have h1 := (archiveRecord_predicted_window ⟨7, 100, 2, "使用中", 1800⟩ 4000).2.1 (by decide)
  have h2 := (archiveRecord_predicted_window ⟨7, 100, 3, "设备故障", 0⟩ 4000).2.2 (by decide)
  exact ⟨by simpa using h1, h2⟩

/-- C9: with the three configured code sets pairwise disjoint, `getStateType`
classifies a code in the idle set as Idle, in the occupied set as Occupied,
in the faulty set as Faulty, and any other code as Unknown; it is a total
pure function. -/
theorem getStateType_spec (idleVals occVals faultyVals : List Int) (code : Int)
    (hio : idleVals.Disjoint occVals) (hif : idleVals.Disjoint faultyVals)
    (hof : occVals.Disjoint faultyVals) :
    (code ∈ idleVals → getStateType idleVals occVals faultyVals code = .idle) ∧
    (code ∈ occVals → getStateType idleVals occVals faultyVals code = .occupied) ∧
    (code ∈ faultyVals → getStateType idleVals occVals faultyVals code = .faulty) ∧
    (code ∉ idleVals → code ∉ occVals → code ∉ faultyVals →
      getStateType idleVals occVals faultyVals code = .unknown) := by
  refine ⟨?_, ?_, ?_, ?_⟩
  · intro h
    have h1 : idleVals.contains code = true := by simpa using h
    simp only [getStateType, h1]
    rfl
  · intro h
    have h1 : idleVals.contains code = false := by
      simpa using fun hc => hio hc h
    have h2 : occVals.contains code = true := by simpa using h
    simp only [getStateType, h1, h2]
    rfl
  · intro h
    have h1 : idleVals.contains code = false := by
      simpa using fun hc => hif hc h
    have h2 : occVals.contains code = false := by
      simpa using fun hc => hof hc h
    have h3 : faultyVals.contains code = true := by simpa using h
    simp only [getStateType, h1, h2, h3]
    rfl
  · intro h1 h2 h3
    simp only [getStateType, (by simpa using h1 : idleVals.contains code = false),
      (by simpa using h2 : occVals.contains code = false),
      (by simpa using h3 : faultyVals.contains code = false)]
    rfl

/-- Witness for C9 with idle = {1}, occupied = {2, 4}, faulty = {3}. -/
theorem getStateType_spec_witness :
    getStateType [1] [2, 4] [3] 1 = .idle ∧ getStateType [1] [2, 4] [3] 4 = .occupied ∧
    getStateType [1] [2, 4] [3] 3 = .faulty ∧ getStateType [1] [2, 4] [3] 9 = .unknown := by
  have hio : List.Disjoint [(1 : Int)] [2, 4] := by
    intro a ha hb
    simp at ha hb
    omega
  have hif : List.Disjoint [(1 : Int)] [3] := by
    intro a ha hb
    simp at ha hb
    omega
  have hof : List.Disjoint [(2 : Int), 4] [3] := by
    intro a ha hb
    simp at ha hb
    omega
  refine ⟨(getStateType_spec [1] [2, 4] [3] 1 hio hif hof).1 (by decide),
    (getStateType_spec [1] [2, 4] [3] 4 hio hif hof).2.1 (by decide),
    (getStateType_spec [1] [2, 4] [3] 3 hio hif hof).2.2.1 (by decide),
    (getStateType_spec [1] [2, 4] [3] 9 hio hif hof).2.2.2 (by decide) (by decide) (by decide)⟩

/-- C7: a pool built with size N has a jobs queue of capacity exactly N
(starting empty); a `Dispatch` when the queue already holds as many jobs as
its capacity has no enabled step — the caller blocks, and the job is neither
dropped nor turned into an error — while a `Dispatch` on a non-full queue
appends the job to the buffer, preserving every previously queued job. -/
theorem workerPool_backpressure (n : Nat) (wp : WorkerPool) (machineID : Int) :
    (NewWorkerPool n).jobsCap = n ∧
    (NewWorkerPool n).jobsBuf = [] ∧
    (wp.jobsBuf.length = wp.jobsCap → dispatchStep wp machineID = none) ∧
    (wp.jobsBuf.length < wp.jobsCap →
      dispatchStep wp machineID = some { wp with jobsBuf := wp.jobsBuf ++ [machineID] }) := by
  refine ⟨rfl, rfl, ?_, ?_⟩
  · intro h
    simp [dispatchStep, h]
  · intro h
    simp [dispatchStep, h]

/-- Witness for C7: a size-1 pool with one queued job blocks a dispatch; an
empty one accepts it. -/
theorem workerPool_backpressure_witness :
    dispatchStep ⟨1, 1, [5]⟩ 9 = none ∧ dispatchStep ⟨1, 1, []⟩ 9 = some ⟨1, 1, [9]⟩ := by
  have h1 := (workerPool_backpressure 1 ⟨1, 1, [5]⟩ 9).2.2.1 (by decide)
  have h2 := (workerPool_backpressure 1 ⟨1, 1, []⟩ 9).2.2.2 (by decide)
  exact ⟨h1, by simpa using h2⟩

/-- C8: a delivery returning HTTP 410 deletes that endpoint's subscription
row (a failing delete leaves the table unchanged and is only logged); a
transport error or any non-410 status leaves the subscriptions untouched (no
retry, no deletion); and the worker attempts every subscriber of the job
exactly once in order, whatever the individual outcomes. -/
theorem notification_delivery_spec (table : List PushSubscription)
    (sub : PushSubscription) (d : Bool) (code : Int) (subs : List PushSubscription)
    (outcomeOf : PushSubscription → SendOutcome)
    (deleteFailsOn : PushSubscription → Bool) :
    (sendNotification table sub (.status 410) false =
      table.filter (fun s => s.endpoint != sub.endpoint)) ∧
    (sendNotification table sub (.status 410) true = table) ∧
    (sendNotification table sub .sendErr d = table) ∧
    (code ≠ 410 → sendNotification table sub (.status code) d = table) ∧
    ((sendNotificationsForMachine table subs outcomeOf deleteFailsOn).2 = subs) := by
  refine ⟨by simp [sendNotification], rfl, rfl, ?_, ?_⟩
  · intro h
    simp [sendNotification, h]
  · induction subs generalizing table with
    | nil => rfl
    | cons s rest ih => simp [sendNotificationsForMachine, ih]

/-- Witness for C8: a 404 response leaves the subscription table unchanged. -/
theorem notification_delivery_spec_witness :
    sendNotification [⟨"e1", "p", "a"⟩] ⟨"e1", "p", "a"⟩ (.status 404) false =
      [⟨"e1", "p", "a"⟩] :=
  (notification_delivery_spec [⟨"e1", "p", "a"⟩] ⟨"e1", "p", "a"⟩ false 404 []
    (fun _ => .sendErr) (fun _ => false)).2.2.2.1 (by decide)

/-- C3 counterexample: the reconciliation's read of the open-sessions table
(`fetchAllOpenOccupancies`) is issued before `db.Transaction` begins, so not
every read of the cycle happens inside the transaction: already on the empty
input the trace opens with the read strictly before `txBegin`. -/
theorem reconcile_read_outside_tx_cex :
    updateOccupancyTrace 0 [] [] sampleClassify =
      [DbOp.readOpenTable, DbOp.txBegin, DbOp.txCommit] ∧
    DbOp.readOpenTable ∈ beforeTx (updateOccupancyTrace 0 [] [] sampleClassify) := by
  decide

/-- C3 amended: every write of a reconciliation occurs inside the single
transaction (the successful trace is exactly the pre-transaction open-table
read, `txBegin`, the write operations, `txCommit`); if any write fails the
whole call returns the error and the durable state rolls back unchanged; and
an intrinsic transaction-body error likewise aborts with no state change.
The initial open-sessions read, however, happens before the transaction
begins, not inside it. -/
theorem reconcile_tx_writes_atomic (now : Int) (items : List ApiItem)
    (c : Int → MachineStateType) (db : DbState) (failOn : Nat → Bool) :
    (∀ st, UpdateOccupancy now db.openTable items c = .ok st →
      updateOccupancyTrace now db.openTable items c =
        DbOp.readOpenTable :: DbOp.txBegin :: st.ops ++ [DbOp.txCommit] ∧
      ∀ op ∈ st.ops, op.isWrite = true) ∧
    (∀ st, UpdateOccupancy now db.openTable items c = .ok st →
      (∃ i, i < st.ops.length ∧ failOn i = true) →
      ∃ e, runUpdateOccupancyFail failOn now items c db = (db, .error e)) ∧
    (∀ e, UpdateOccupancy now db.openTable items c = .error e →
      runUpdateOccupancyFail failOn now items c db = (db, .error e)) := by
  refine ⟨?_, ?_, ?_⟩
  · intro st hok
    constructor
    · rw [updateOccupancyTrace, hok]
    · obtain ⟨st0, rem, hpi, rfl⟩ := updateOccupancy_ok_inv hok
      rw [(archiveRemaining_spec now rem st0).2.2.2]
      intro op hop
      rcases List.mem_append.mp hop with hop | hop
      · exact processItems_ops_writes hpi (by simp) op hop
      · exact remainingOps_writes now rem op hop
  · intro st hok hex
    obtain ⟨e, he⟩ := applyOpsFail_err st.ops { db with history := [] } 0 (by simpa using hex)
    exact ⟨e, by simp only [runUpdateOccupancyFail, hok, he]⟩
  · intro e herr
    simp only [runUpdateOccupancyFail, herr]

/-- Witness for the amended C3: with every write failing, archiving the one
open session of machine 5 aborts and the database keeps its pre-call state. -/
theorem reconcile_tx_writes_atomic_witness :
    ∃ e, runUpdateOccupancyFail (fun _ => true) 200 [] sampleClassify
        ⟨[⟨5, 90, 2, "使用中", 0⟩], []⟩ = (⟨[⟨5, 90, 2, "使用中", 0⟩], []⟩, .error e) :=
  (reconcile_tx_writes_atomic 200 [] sampleClassify ⟨[⟨5, 90, 2, "使用中", 0⟩], []⟩
      (fun _ => true)).2.1
    ⟨[], [⟨5, 200, 2, "使用中", 90, 200⟩], [],
      [.insertHistory ⟨5, 200, 2, "使用中", 90, 200⟩, .deleteOpenRow 5]⟩
    (by rfl) ⟨0, by decide, rfl⟩

theorem filter_mid_map_archive (now m : Int) :
    ∀ (rem : List OccupancyOpen),
      (rem.map (fun x => archiveRecord x now)).filter (fun x => x.machineID == m) =
        (rem.filter (fun x => x.machineID == m)).map (fun x => archiveRecord x now) := by
  intro rem
  induction rem with
  | nil => rfl
  | cons x rest ih =>
    by_cases hx : x.machineID = m <;>
      simp [List.filter_cons, hx, ih]

/-- C4 counterexample: machine 1's open session, observed at 90 with 50 s
remaining, disappears from the snapshot at now = 200; the archived history
row gets the predicted period-end 90 + 50 = 140, not the claimed `now` =
200 — `archiveRecord` applies the predicted remainder on the disappearance
path too. -/
theorem disappearance_periodEnd_cex :
    runUpdateOccupancy 200 [] sampleClassify ⟨[⟨1, 90, 2, "使用中", 50⟩], []⟩ =
      (⟨[], [⟨1, 200, 2, "使用中", 90, 140⟩]⟩, .ok []) ∧ (140 : Int) ≠ 200 :=
  ⟨by rfl, by decide⟩

/-- C4 amended: in a successful reconciliation, every open session whose
machine is absent from the snapshot is archived in exactly one history row —
with period-start = its observed-at, and period-end = observed-at + R when
its remaining estimate R is positive, else `now` — its open row is deleted,
and its machine ID is not on the notify list. -/
theorem disappearance_archived_silently (now : Int) (c : Int → MachineStateType)
    (items : List ApiItem) (open0 : List OccupancyOpen) (stF : TxState)
    (m : Int) (r : OccupancyOpen)
    (hmids : (midsOf open0).Nodup)
    (hr : lookupOpen open0 m = some r)
    (habs : m ∉ idsOf items)
    (h : UpdateOccupancy now open0 items c = .ok stF) :
    stF.history.filter (fun x => x.machineID == m) = [archiveRecord r now] ∧
    lookupOpen stF.table m = none ∧
    m ∉ stF.notify ∧
    (archiveRecord r now).periodStart = r.observedAt ∧
    (archiveRecord r now).periodEnd =
      (if r.timeRemaining > 0 then r.observedAt + r.timeRemaining else now) := by
  obtain ⟨st, rem, hpi, rfl⟩ := updateOccupancy_ok_inv h
  rw [buildPending_eq_self hmids] at hpi
  have hrmem : r ∈ open0 := (lookupOpen_eq_some hr).1
  have hrmid : r.machineID = m := (lookupOpen_eq_some hr).2
  have hrem : rem = open0.filter (fun x => !((idsOf items).contains x.machineID)) :=
    processItems_pending hpi
  have hrrem : r ∈ rem := by
    rw [hrem]
    refine List.mem_filter.mpr ⟨hrmem, ?_⟩
    rw [hrmid]
    simpa using habs
  refine ⟨?_, ?_, ?_, rfl, ?_⟩
  · rw [(archiveRemaining_spec now rem st).2.1]
    obtain ⟨extra, hex, hexids⟩ := processItems_history hpi
    simp only [List.nil_append] at hex
    rw [hex, List.filter_append]
    have h1 : extra.filter (fun x => x.machineID == m) = [] := by
      rw [List.filter_eq_nil_iff]
      intro x hx
      have : x.machineID ≠ m := fun hc => habs (hc ▸ hexids x hx)
      simpa using this
    have h2 : (rem.map (fun x => archiveRecord x now)).filter (fun x => x.machineID == m) =
        [archiveRecord r now] := by
      rw [filter_mid_map_archive]
      have hnd : (midsOf rem).Nodup := by
        rw [hrem]
        exact hmids.sublist (midsOf_sublist (List.filter_sublist _))
      have hlkrem : lookupOpen rem m = some r := by
        rw [hrem, lookupOpen, find?_filter_of_imp]
        · exact hr
        · intro x hx
          have : x.machineID = m := by simpa using hx
          rw [this]
          simpa using habs
      rw [filter_mid_eq_single hnd hlkrem]
      rfl
    rw [h1, h2]
    rfl
  · rw [(archiveRemaining_spec now rem st).1]
    exact lookupOpen_deleteAll_mem (mem_midsOf.mpr ⟨r, hrrem, hrmid⟩)
  · rw [(archiveRemaining_spec now rem st).2.2.1]
    intro hc
    obtain ⟨extra, hex, hexids⟩ := processItems_notify hpi
    simp only [List.nil_append] at hex
    rw [hex] at hc
    exact habs (hexids m hc)
  · rfl

/-- Witness for the amended C4: machine 1's session (observed at 90,
50 s remaining) disappears at now = 200. -/
theorem disappearance_archived_silently_witness :
    ([(⟨1, 200, 2, "使用中", 90, 140⟩ : OccupancyHistory)].filter
        (fun x => x.machineID == 1) = [archiveRecord ⟨1, 90, 2, "使用中", 50⟩ 200]) ∧
    lookupOpen [] 1 = none ∧ (1 : Int) ∉ ([] : List Int) := by
  have h := disappearance_archived_silently 200 sampleClassify []
    [⟨1, 90, 2, "使用中", 50⟩]
    ⟨[], [⟨1, 200, 2, "使用中", 90, 140⟩], [],
      [.insertHistory ⟨1, 200, 2, "使用中", 90, 140⟩, .deleteOpenRow 1]⟩
    1 ⟨1, 90, 2, "使用中", 50⟩ (by decide) (by rfl) (by decide) (by rfl)
  exact ⟨h.1, h.2.1, h.2.2.1⟩

/-- C5 counterexample: with a snapshot that lists machine 6 twice (first with
the idle code 1, then with the occupied code 2), reconciling twice in a row
from the empty table with no time advance is not idempotent: the first call
creates one open row, and the second call archives it, deletes it, re-creates
it — three writes — and returns the non-empty notify list [6]. -/
theorem reconcile_idempotence_cex :
    UpdateOccupancy 0 [] [⟨6, 1, none⟩, ⟨6, 2, none⟩] sampleClassify =
      .ok ⟨[⟨6, 0, 2, "使用中", 0⟩], [], [],
        [.createOpenRow ⟨6, 0, 2, "使用中", 0⟩]⟩ ∧
    UpdateOccupancy 0 [⟨6, 0, 2, "使用中", 0⟩] [⟨6, 1, none⟩, ⟨6, 2, none⟩] sampleClassify =
      .ok ⟨[⟨6, 0, 2, "使用中", 0⟩], [⟨6, 0, 2, "使用中", 0, 0⟩], [6],
        [.insertHistory ⟨6, 0, 2, "使用中", 0, 0⟩, .deleteOpenRow 6,
         .createOpenRow ⟨6, 0, 2, "使用中", 0⟩]⟩ ∧
    ([6] : List Int) ≠ [] :=
  ⟨by rfl, by rfl, by decide⟩

/-- C5 amended: for a snapshot listing each machine at most once (and a
well-keyed open table), a second reconciliation with the same `now` and the
same snapshot immediately after a successful one issues zero writes, appends
no history, leaves the open table unchanged and returns an empty notify
list. -/
theorem reconcile_idempotent (now : Int) (c : Int → MachineStateType)
    (items : List ApiItem) (open0 : List OccupancyOpen) (st1 : TxState)
    (hids : (idsOf items).Nodup) (hmids : (midsOf open0).Nodup)
    (h1 : UpdateOccupancy now open0 items c = .ok st1) :
    ∃ st2, UpdateOccupancy now st1.table items c = .ok st2 ∧
      st2.ops = [] ∧ st2.notify = [] ∧ st2.history = [] ∧ st2.table = st1.table := by
  have hnd1 : (midsOf st1.table).Nodup := updateOccupancy_table_nodup hmids h1
  have hlk := updateOccupancy_lookup_final hids hmids h1
  have hmatch : ∀ it ∈ items, (match lookupOpen st1.table it.id with
      | some old => old.status = it.state
      | none => c it.state = .idle) := by
    intro it hit
    rw [hlk it hit]
    cases holds : lookupOpen open0 it.id with
    | some old =>
      simp only [reconcileRowSpec]
      by_cases hst : it.state = old.status
      · simp [hst]
      · by_cases hidle : c it.state = .idle
        · simp [hst, hidle]
        · simp [hst, hidle]
    | none =>
      simp only [reconcileRowSpec]
      by_cases hidle : c it.state = .idle
      · simp [hidle]
      · simp [hidle]
  obtain ⟨pending2, hp2⟩ :=
    @processItems_noop c now items st1.table ⟨st1.table, [], [], []⟩ hids hmatch
  have hp2' := processItems_pending hp2
  have hsub : ∀ x ∈ st1.table, x.machineID ∈ idsOf items := by
    obtain ⟨st, rem, hpi, hstF⟩ := updateOccupancy_ok_inv h1
    rw [buildPending_eq_self hmids] at hpi
    intro x hx
    rw [hstF, (archiveRemaining_spec now rem st).1] at hx
    obtain ⟨hxst, hxnot⟩ := mem_deleteAll.mp hx
    by_contra hxni
    rcases processItems_table_mem hpi x hxst with hxo | hxid
    · have : x ∈ rem := by
        rw [processItems_pending hpi]
        exact List.mem_filter.mpr ⟨hxo, by simpa using hxni⟩
      exact hxnot (mem_midsOf.mpr ⟨x, this, rfl⟩)
    · exact hxni hxid
  have hpend2 : pending2 = [] := by
    rw [hp2', List.filter_eq_nil_iff]
    intro x hx
    simp [hsub x hx]
  refine ⟨⟨st1.table, [], [], []⟩, ?_, rfl, rfl, rfl, rfl⟩
  rw [UpdateOccupancy, buildPending_eq_self hnd1, hp2, hpend2]
  rfl

/-- Witness for the amended C5: one occupied machine created from the empty
table; the repeated call performs no writes. -/
theorem reconcile_idempotent_witness :
    ∃ st2, UpdateOccupancy 0 [⟨7, 0, 2, "使用中", 0⟩] [⟨7, 2, none⟩] sampleClassify = .ok st2 ∧
      st2.ops = [] ∧ st2.notify = [] ∧ st2.history = [] ∧
      st2.table = [⟨7, 0, 2, "使用中", 0⟩] := by
  have h := reconcile_idempotent 0 sampleClassify [⟨7, 2, none⟩] []
    ⟨[⟨7, 0, 2, "使用中", 0⟩], [], [], [.createOpenRow ⟨7, 0, 2, "使用中", 0⟩]⟩
    (by decide) (by decide) (by rfl)
  simpa using h

/-- C6: starting from the empty open table, after any sequence of
reconciliation cycles with the (fixed) configured classifier, each machine ID
has at most one open-session row, and every stored row's status classifies
non-idle — never Idle. -/
theorem openTable_invariant (c : Int → MachineStateType)
    (calls : List (Int × List ApiItem)) :
    (midsOf (reconcileSeq c calls)).Nodup ∧
    ∀ r ∈ reconcileSeq c calls, c r.status ≠ .idle := by
  have hstep : ∀ (t : List OccupancyOpen) (call : Int × List ApiItem),
      ((midsOf t).Nodup ∧ ∀ r ∈ t, c r.status ≠ .idle) →
      ((midsOf (reconcileStep c t call)).Nodup ∧
        ∀ r ∈ reconcileStep c t call, c r.status ≠ .idle) := by
    rintro t call ⟨hnd, hni⟩
    cases hu : UpdateOccupancy call.1 t call.2 c with
    | error e =>
      rw [reconcileStep, hu]
      exact ⟨hnd, hni⟩
    | ok st =>
      rw [reconcileStep, hu]
      exact ⟨updateOccupancy_table_nodup hnd hu, updateOccupancy_table_nonidle hni hu⟩
  have hfold : ∀ (cs : List (Int × List ApiItem)) (t : List OccupancyOpen),
      ((midsOf t).Nodup ∧ ∀ r ∈ t, c r.status ≠ .idle) →
      ((midsOf (cs.foldl (reconcileStep c) t)).Nodup ∧
        ∀ r ∈ cs.foldl (reconcileStep c) t, c r.status ≠ .idle) := by
    intro cs
    induction cs with
    | nil => intro t h; exact h
    | cons cl rest ih =>
      intro t h
      exact ih _ (hstep t cl h)
  exact hfold calls [] ⟨by simp, by simp⟩

/-- Witness for C6 on one cycle creating an occupied session for machine 1. -/
theorem openTable_invariant_witness :
    (midsOf (reconcileSeq sampleClassify [(0, [⟨1, 2, none⟩])])).Nodup ∧
    sampleClassify 2 ≠ .idle := by
  have h := openTable_invariant sampleClassify [(0, [⟨1, 2, none⟩])]
  exact ⟨h.1, h.2 ⟨1, 0, 2, "使用中", 0⟩ (by decide)⟩

/-- C1 counterexample: with open session (machine 1, status 2) and a snapshot
listing machine 1 twice — first with its unchanged code 2, then with the
idle-classified code 1 ≠ 2 — the snapshot does contain an entry for machine 1
whose classified state is Idle with a status different from the stored one,
and an open session existed, yet the notify list of the reconciliation is
empty: the claimed iff fails. -/
theorem notify_precision_cex :
    UpdateOccupancy 200 [⟨1, 90, 2, "使用中", 0⟩] [⟨1, 2, none⟩, ⟨1, 1, none⟩] sampleClassify =
      .ok ⟨[⟨1, 90, 2, "使用中", 0⟩], [], [], []⟩ ∧
    lookupOpen [⟨1, 90, 2, "使用中", 0⟩] 1 = some ⟨1, 90, 2, "使用中", 0⟩ ∧
    (∃ it ∈ [(⟨1, 2, none⟩ : ApiItem), ⟨1, 1, none⟩], it.id = 1 ∧
      sampleClassify it.state = .idle ∧ it.state ≠ 2) :=
  ⟨by rfl, by rfl, by decide⟩

/-- C1 amended: provided the snapshot lists each machine at most once (and
the open table is keyed uniquely), a machine ID is on the notify list of a
successful reconciliation iff an open session existed for it before the call
and the snapshot contains its entry with a status code different from the
stored one whose classified state is Idle; transitions to non-idle classes
and disappearances never notify. -/
theorem notify_precision (now : Int) (c : Int → MachineStateType)
    (items : List ApiItem) (open0 : List OccupancyOpen) (stF : TxState) (m : Int)
    (hids : (idsOf items).Nodup) (hmids : (midsOf open0).Nodup)
    (h : UpdateOccupancy now open0 items c = .ok stF) :
    m ∈ stF.notify ↔
      ∃ old, lookupOpen open0 m = some old ∧
        ∃ it ∈ items, it.id = m ∧ it.state ≠ old.status ∧ c it.state = .idle := by
  rw [updateOccupancy_notify_eq hmids h]
  exact mem_notifySpec hids

/-- Witness for the amended C1: machine 1 (stored status 2) observed with the
idle code 1 is on the notify list. -/
theorem notify_precision_witness :
    ∃ old, lookupOpen [⟨1, 90, 2, "使用中", 0⟩] 1 = some old ∧
      ∃ it ∈ [(⟨1, 1, none⟩ : ApiItem)], it.id = 1 ∧ it.state ≠ old.status ∧
        sampleClassify it.state = .idle := by
  have h := notify_precision 200 sampleClassify [⟨1, 1, none⟩] [⟨1, 90, 2, "使用中", 0⟩]
    ⟨[], [⟨1, 200, 2, "使用中", 90, 200⟩], [1],
      [.insertHistory ⟨1, 200, 2, "使用中", 90, 200⟩, .deleteOpenRow 1]⟩ 1
    (by decide) (by decide) (by rfl)
  exact h.mp (by decide)

/-- C10: in a successful reconciliation (snapshot and table uniquely keyed),
a machine whose stored session has a different status code and whose new
state classifies non-idle gets its open row fully replaced by the freshly
prepared one: observed-at becomes `now` (the transition's observation time),
the status is the new code, the message is recomputed from the new classified
state, remaining-seconds is predicted-finish minus `now` when that timestamp
exists and lies strictly after `now` and `0` otherwise (never negative), and
any later archival of this row uses `now` as its period-start. -/
theorem statusChange_row_replaced (now : Int) (c : Int → MachineStateType)
    (items : List ApiItem) (open0 : List OccupancyOpen) (stF : TxState)
    (item : ApiItem) (old : OccupancyOpen)
    (hids : (idsOf items).Nodup) (hmids : (midsOf open0).Nodup)
    (hmem : item ∈ items) (hold : lookupOpen open0 item.id = some old)
    (hch : item.state ≠ old.status) (hni : c item.state ≠ .idle)
    (h : UpdateOccupancy now open0 items c = .ok stF) :
    lookupOpen stF.table item.id = some (prepareOccupancy item now c) ∧
    (prepareOccupancy item now c).observedAt = now ∧
    (prepareOccupancy item now c).status = item.state ∧
    (prepareOccupancy item now c).message =
      (match c item.state with
       | .occupied => "使用中"
       | .faulty => "设备故障"
       | .unknown => "未知状态"
       | .idle => "") ∧
    (prepareOccupancy item now c).timeRemaining =
      (match item.finishTimeParsed with
       | some finish => if now < finish then finish - now else 0
       | none => 0) ∧
    0 ≤ (prepareOccupancy item now c).timeRemaining ∧
    (∀ t, (archiveRecord (prepareOccupancy item now c) t).periodStart = now) := by
  refine ⟨?_, rfl, rfl, rfl, rfl, ?_, fun t => rfl⟩
  · have hspec := updateOccupancy_lookup_final hids hmids h item hmem
    rw [hspec, hold]
    simp only [reconcileRowSpec]
    rw [if_neg hch, if_neg hni]
  · cases hf : item.finishTimeParsed with
    | none => simp [prepareOccupancy, hf]
    | some finish =>
      simp only [prepareOccupancy, hf]
      by_cases hlt : now < finish
      · rw [if_pos hlt]
        omega
      · rw [if_neg hlt]

/-- Witness for C10: machine 1 transitions from status 2 to the faulty code 3
with a predicted finish 60 s after now. -/
theorem statusChange_row_replaced_witness :
    lookupOpen [(⟨1, 200, 3, "设备故障", 60⟩ : OccupancyOpen)] 1 =
      some (prepareOccupancy ⟨1, 3, some 260⟩ 200 sampleClassify) ∧
    0 ≤ (prepareOccupancy ⟨1, 3, some 260⟩ 200 sampleClassify).timeRemaining := by
  have h := statusChange_row_replaced 200 sampleClassify [⟨1, 3, some 260⟩]
    [⟨1, 90, 2, "使用中", 50⟩]
    ⟨[⟨1, 200, 3, "设备故障", 60⟩], [⟨1, 200, 2, "使用中", 90, 140⟩], [],
      [.insertHistory ⟨1, 200, 2, "使用中", 90, 140⟩, .saveOpenRow ⟨1, 200, 3, "设备故障", 60⟩]⟩
    ⟨1, 3, some 260⟩ ⟨1, 90, 2, "使用中", 50⟩
    (by decide) (by decide) (by decide) (by rfl) (by decide) (by decide) (by rfl)
  exact ⟨h.1, h.2.2.2.2.2.1⟩

end LaundryMonitor
